import Mathlib

/-!
Verification of the windowed partial-aggregation cache (src/pool/partials.py).

The embedding translates the Python source directly:
  - PartialsInterval (a windowed sum): a list of (timestamp, difficulty)
    events, a running points total, the itertools.count counter (next value),
    and keep_interval. Timestamps, difficulties and points are Int, matching
    unbounded Python integers.
  - The eviction while-loop of PartialsInterval.add is evictLoop.
  - int(time.time()) is modelled by an explicit now argument to add; the two
    wall-clock reads inside one PartialsCache.add are modelled as one instant.
  - PartialsCache: an insertion-ordered association list from launcher id
    (modelled as Nat) to PartialsInterval, the distinguished "all" interval,
    and keep_interval. Python dict preserves insertion order, which the
    association list mirrors (upsert keeps the position of an existing key and
    appends a fresh one).
  - The metric-report step of PartialsCache.add: Decimal division by zero
    raises in Python, so the step is embedded as an Except value that is an
    error exactly when the divisor all.points is zero. The float-based
    estimated_size value is not modelled (floating point); it cannot raise for
    a zero divisor since its divisor is a positive constant.
  - Partials: the facade; the durable store is modelled as the list of
    persisted raw events, and store-provided payout instructions are passed in
    as an association list.
-/

/-- Sum of the weight (difficulty) components of a list of
(timestamp, difficulty) events. -/
def sumWeights (l : List (Int × Int)) : Int :=
  (l.map Prod.snd).sum

/-- State of a PartialsInterval: the partials list, the running points total,
the next value of the itertools.count() counter (which starts at 0), and the
retention window keep_interval. -/
structure PartialsInterval where
  partials : List (Int × Int)
  points : Int
  additions : Nat
  keep_interval : Int
deriving DecidableEq

/-- PartialsInterval.__init__: empty list, zero points, counter at 0. -/
def PartialsInterval.init (keep_interval : Int) : PartialsInterval :=
  ⟨[], 0, 0, keep_interval⟩

/-- The eviction while-loop of PartialsInterval.add: while the list is
nonempty and its first event is older than dropTime, delete the first event
and decrement points by its difficulty; stop at the first event that is not
expired. Returns the remaining list and the adjusted points. -/
def evictLoop : List (Int × Int) → Int → Int → List (Int × Int) × Int
  | [], _, points => ([], points)
  | (t, d) :: rest, dropTime, points =>
    if t < dropTime then evictLoop rest dropTime (points - d)
    else ((t, d) :: rest, points)

/-- PartialsInterval.add: append the event, add its difficulty to points,
run eviction when remove is true (dropTime = now - keep_interval), and return
the new state together with next(self.additions) (the pre-increment counter
value). -/
def PartialsInterval.add (s : PartialsInterval) (timestamp difficulty now : Int)
    (remove : Bool) : PartialsInterval × Nat :=
  let appended := s.partials ++ [(timestamp, difficulty)]
  let p := s.points + difficulty
  let ep := if remove then evictLoop appended (now - s.keep_interval) p
            else (appended, p)
  (⟨ep.1, ep.2, s.additions + 1, s.keep_interval⟩, s.additions)

/-- One add call on a PartialsInterval: timestamp, difficulty, the wall-clock
time of the call, and the remove flag. -/
structure PIOp where
  ts : Int
  d : Int
  now : Int
  remove : Bool
deriving DecidableEq

/-- Run a sequence of add calls on a PartialsInterval. -/
def runPI (s : PartialsInterval) (ops : List PIOp) : PartialsInterval :=
  ops.foldl (fun s o => (PartialsInterval.add s o.ts o.d o.now o.remove).1) s

/-- The returned counter values of a sequence of add calls. -/
def runReturns : PartialsInterval → List PIOp → List Nat
  | _, [] => []
  | s, o :: ops =>
    (s.add o.ts o.d o.now o.remove).2
      :: runReturns (s.add o.ts o.d o.now o.remove).1 ops

theorem sumWeights_nil : sumWeights [] = 0 := rfl

theorem sumWeights_cons (a : Int × Int) (l : List (Int × Int)) :
    sumWeights (a :: l) = a.2 + sumWeights l := by
  simp [sumWeights]

theorem sumWeights_append (l l2 : List (Int × Int)) :
    sumWeights (l ++ l2) = sumWeights l + sumWeights l2 := by
  simp [sumWeights]

/-- evictLoop removes exactly the longest expired prefix and subtracts its
weight from points. -/
theorem evictLoop_eq (l : List (Int × Int)) (dt p : Int) :
    evictLoop l dt p =
      (l.dropWhile (fun x => decide (x.1 < dt)),
       p - sumWeights (l.takeWhile (fun x => decide (x.1 < dt)))) := by
  induction l generalizing p with
  | nil => simp [evictLoop, sumWeights]
  | cons a rest ih =>
    obtain ⟨t, d⟩ := a
    by_cases h : t < dt
    · simp only [evictLoop, if_pos h, List.dropWhile, List.takeWhile,
        decide_eq_true h, ih, Prod.mk.injEq, sumWeights_cons]
      exact ⟨trivial, by ring⟩
    · simp [evictLoop, if_neg h, List.dropWhile, List.takeWhile,
        decide_eq_false h, sumWeights]

/-- When no element of the list is expired, evictLoop is a no-op. -/
theorem evictLoop_of_forall (l : List (Int × Int)) (dt p : Int)
    (h : ∀ x ∈ l, dt ≤ x.1) : evictLoop l dt p = (l, p) := by
  cases l with
  | nil => rfl
  | cons a rest =>
    obtain ⟨t, d⟩ := a
    have ht : ¬ t < dt := not_lt.mpr (h (t, d) (by simp))
    simp [evictLoop, ht]

/-- A single add preserves the points-equals-sum-of-weights invariant. -/
theorem add_points_inv (s : PartialsInterval) (ts d now : Int) (r : Bool)
    (h : s.points = sumWeights s.partials) :
    ((s.add ts d now r).1).points = sumWeights ((s.add ts d now r).1).partials := by
  cases r with
  | false =>
    simp [PartialsInterval.add, sumWeights_append, h, sumWeights]
  | true =>
    simp only [PartialsInterval.add, evictLoop_eq, if_true]
    have h2 : sumWeights ((s.partials ++ [(ts, d)]).takeWhile
          (fun x => decide (x.1 < now - s.keep_interval)))
        + sumWeights ((s.partials ++ [(ts, d)]).dropWhile
          (fun x => decide (x.1 < now - s.keep_interval)))
        = sumWeights (s.partials ++ [(ts, d)]) := by
      rw [← sumWeights_append, List.takeWhile_append_dropWhile]
    have h3 : sumWeights (s.partials ++ [(ts, d)]) = s.points + d := by
      rw [sumWeights_append, h]
      simp [sumWeights]
    omega

/-- Running any sequence of adds preserves the points invariant. -/
theorem runPI_points_inv (ops : List PIOp) (s : PartialsInterval)
    (h : s.points = sumWeights s.partials) :
    (runPI s ops).points = sumWeights (runPI s ops).partials := by
  induction ops generalizing s with
  | nil => simpa [runPI] using h
  | cons o rest ih =>
    simp only [runPI, List.foldl_cons]
    exact ih _ (add_points_inv s o.ts o.d o.now o.remove h)

/-- Claim C3: for every PartialsInterval and every sequence of add operations
(eviction enabled or disabled), points equals the sum of weights of the events
currently held; the empty (initial) sequence has points 0; and eviction on an
empty sequence is a no-op. -/
theorem claim_C3 (keep : Int) (ops : List PIOp) :
    (runPI (PartialsInterval.init keep) ops).points
        = sumWeights (runPI (PartialsInterval.init keep) ops).partials
      ∧ (PartialsInterval.init keep).points = 0
      ∧ ∀ dt p : Int, evictLoop [] dt p = ([], p) :=
  ⟨runPI_points_inv ops _ rfl, rfl, fun _ _ => rfl⟩

/-- Claim C4 counterexample: the very first add on a fresh PartialsInterval
returns 0 (itertools.count() starts at 0), not 1 as the claim states. -/
theorem claim_C4_counterexample :
    ((PartialsInterval.init 86400).add 5 7 5 true).2 ≠ 1
      ∧ ((PartialsInterval.init 86400).add 5 7 5 true).2 = 0 := by
  constructor
  · decide
  · rfl

theorem runReturns_eq_range' (ops : List PIOp) (s : PartialsInterval) :
    runReturns s ops = List.range' s.additions ops.length := by
  induction ops generalizing s with
  | nil => rfl
  | cons o rest ih =>
    simp only [runReturns, List.length_cons, List.range'_succ]
    have h1 : (s.add o.ts o.d o.now o.remove).2 = s.additions := rfl
    have h2 : (s.add o.ts o.d o.now o.remove).1.additions = s.additions + 1 := rfl
    rw [h1, ih, h2]

/-- Claim C4 (amended): the counter values returned by successive add calls on
one key are 0, 1, 2, ... in order — strictly increasing, with the first
insertion into a fresh key returning 0 (not 1). -/
theorem claim_C4_amended (keep : Int) (ops : List PIOp) :
    runReturns (PartialsInterval.init keep) ops = List.range ops.length := by
  rw [List.range_eq_range']
  exact runReturns_eq_range' ops (PartialsInterval.init keep)

/-- Claim C10: add with eviction enabled does not guarantee that the event
just added is retained. Concretely, with keep_interval 100: after add(0, 5)
at now = 0 the interval holds one event with points 5; a subsequent
add(10, 3) at now = 500 appends the event and then the eviction pass removes
both the old event and the just-appended one, leaving the list empty and
points 0 — strictly lower than before the add. -/
theorem claim_C10 :
    (((PartialsInterval.init 100).add 0 5 0 true).1.add 10 3 500 true).1.partials = []
      ∧ (((PartialsInterval.init 100).add 0 5 0 true).1.add 10 3 500 true).1.points = 0
      ∧ (((PartialsInterval.init 100).add 0 5 0 true).1.add 10 3 500 true).1.points
          < ((PartialsInterval.init 100).add 0 5 0 true).1.points := by
  refine ⟨rfl, rfl, ?_⟩
  decide

/-- The partials list is chronologically sorted (non-decreasing timestamps). -/
def sortedP (l : List (Int × Int)) : Prop :=
  List.Pairwise (fun a b => a.1 ≤ b.1) l

theorem sortedP_append (l : List (Int × Int)) (t d : Int)
    (h : sortedP l) (hb : ∀ x ∈ l, x.1 ≤ t) : sortedP (l ++ [(t, d)]) := by
  rw [sortedP, List.pairwise_append]
  refine ⟨h, List.pairwise_singleton _ _, ?_⟩
  intro a ha b hb2
  simp only [List.mem_singleton] at hb2
  subst hb2
  exact hb a ha

/-- On a sorted list, every event surviving the expired-prefix drop is within
the window. -/
theorem mem_dropWhile_ge (l : List (Int × Int)) (dt : Int) (h : sortedP l) :
    ∀ x ∈ l.dropWhile (fun x => decide (x.1 < dt)), dt ≤ x.1 := by
  induction l with
  | nil => intro x hx; simp [List.dropWhile] at hx
  | cons a rest ih =>
    rw [sortedP, List.pairwise_cons] at h
    simp only [List.dropWhile_cons]
    by_cases ha : a.1 < dt
    · simpa [ha] using ih h.2
    · intro x hx
      rw [if_neg (by simp [ha] : ¬ (decide (a.1 < dt) = true))] at hx
      rcases List.mem_cons.mp hx with rfl | hx
      · exact not_lt.mp ha
      · exact le_trans (not_lt.mp ha) (h.1 x hx)

/-- Every event retained after an add was either already present or is the
event just added. -/
theorem add_mem_sub (s : PartialsInterval) (ts d now : Int) (r : Bool) :
    ∀ x ∈ (s.add ts d now r).1.partials, x ∈ s.partials ∨ x = (ts, d) := by
  intro x hx
  cases r with
  | false => simpa [PartialsInterval.add] using hx
  | true =>
    simp only [PartialsInterval.add, evictLoop_eq, if_true] at hx
    have h2 := (List.dropWhile_sublist _).subset hx
    simpa using h2

/-- An add preserves chronological sortedness when the new timestamp is not
older than any retained event. -/
theorem add_sorted (s : PartialsInterval) (ts d now : Int) (r : Bool)
    (h : sortedP s.partials) (hb : ∀ x ∈ s.partials, x.1 ≤ ts) :
    sortedP (s.add ts d now r).1.partials := by
  have happ : sortedP (s.partials ++ [(ts, d)]) := sortedP_append _ _ _ h hb
  cases r with
  | false => simpa [PartialsInterval.add] using happ
  | true =>
    simp only [PartialsInterval.add, evictLoop_eq, if_true]
    exact List.Pairwise.sublist (List.dropWhile_sublist _) happ

theorem runPI_keep (ops : List PIOp) (s : PartialsInterval) :
    (runPI s ops).keep_interval = s.keep_interval := by
  induction ops generalizing s with
  | nil => rfl
  | cons o rest ih =>
    simp only [runPI, List.foldl_cons]
    exact (ih ((s.add o.ts o.d o.now o.remove).1)).trans rfl

/-- Every timestamp retained after a run comes from the initial state or from
one of the operations. -/
theorem runPI_mem : ∀ (ops : List PIOp) (s : PartialsInterval),
    ∀ x ∈ (runPI s ops).partials, x ∈ s.partials ∨ x.1 ∈ ops.map PIOp.ts := by
  intro ops
  induction ops with
  | nil => intro s x hx; exact Or.inl (by simpa [runPI] using hx)
  | cons o rest ih =>
    intro s x hx
    simp only [runPI, List.foldl_cons] at hx
    rcases ih _ x hx with h | h
    · rcases add_mem_sub s o.ts o.d o.now o.remove x h with h2 | h2
      · exact Or.inl h2
      · right
        simp [h2]
    · right
      simp [h]

/-- A run over chronologically ordered operations keeps the list sorted. -/
theorem runPI_sorted : ∀ (ops : List PIOp) (s : PartialsInterval),
    sortedP s.partials →
    (∀ x ∈ s.partials, ∀ t ∈ ops.map PIOp.ts, x.1 ≤ t) →
    List.Pairwise (· ≤ ·) (ops.map PIOp.ts) →
    sortedP (runPI s ops).partials := by
  intro ops
  induction ops with
  | nil => intro s hs _ _; simpa [runPI] using hs
  | cons o rest ih =>
    intro s hs hb hops
    simp only [List.map_cons, List.pairwise_cons] at hops
    simp only [runPI, List.foldl_cons]
    apply ih
    · exact add_sorted s o.ts o.d o.now o.remove hs
        (fun x hx => hb x hx o.ts (by simp))
    · intro x hx t ht
      rcases add_mem_sub s o.ts o.d o.now o.remove x hx with h | h
      · exact hb x h t (by simp [ht])
      · simpa [h] using hops.1 t ht
    · exact hops.2

/-- Core of claim C1: an evicting add on a sorted, bounded, sum-consistent
interval leaves only in-window events, and points is the sum of the weights of
the retained in-window events. -/
theorem add_evict_window (s : PartialsInterval) (ts d now : Int)
    (hsort : sortedP s.partials)
    (hb : ∀ x ∈ s.partials, x.1 ≤ ts)
    (hpts : s.points = sumWeights s.partials) :
    (∀ x ∈ (s.add ts d now true).1.partials, now - s.keep_interval ≤ x.1)
    ∧ (s.add ts d now true).1.points
        = sumWeights ((s.add ts d now true).1.partials.filter
            (fun x => decide (now - s.keep_interval ≤ x.1))) := by
  have happ : sortedP (s.partials ++ [(ts, d)]) := sortedP_append _ _ _ hsort hb
  have hmem : ∀ x ∈ (s.add ts d now true).1.partials, now - s.keep_interval ≤ x.1 := by
    intro x hx
    simp only [PartialsInterval.add, evictLoop_eq, if_true] at hx
    exact mem_dropWhile_ge _ _ happ x hx
  refine ⟨hmem, ?_⟩
  have hfilter : (s.add ts d now true).1.partials.filter
      (fun x => decide (now - s.keep_interval ≤ x.1))
      = (s.add ts d now true).1.partials :=
    List.filter_eq_self.mpr (fun x hx => decide_eq_true (hmem x hx))
  rw [hfilter]
  exact add_points_inv s ts d now true hpts

/-- Claim C1: for every sequence of add calls with non-decreasing timestamps,
after an add with eviction enabled completes at wall-clock time now, points
equals the exact sum of weights of the retained events whose timestamp is at
least now - keep_interval (and indeed every retained event is in that
window). -/
theorem claim_C1 (keep : Int) (ops : List PIOp) (ts d now : Int)
    (hchron : List.Pairwise (· ≤ ·) (ops.map PIOp.ts ++ [ts])) :
    ((runPI (PartialsInterval.init keep) ops).add ts d now true).1.points
      = sumWeights ((((runPI (PartialsInterval.init keep) ops).add ts d now true).1.partials).filter
          (fun x => decide (now - keep ≤ x.1)))
    ∧ ∀ x ∈ ((runPI (PartialsInterval.init keep) ops).add ts d now true).1.partials,
        now - keep ≤ x.1 := by
  rw [List.pairwise_append] at hchron
  obtain ⟨h1, _, h3⟩ := hchron
  have hts : ∀ a ∈ ops.map PIOp.ts, a ≤ ts := by
    intro a ha
    exact h3 a ha ts (by simp)
  have hs : sortedP (runPI (PartialsInterval.init keep) ops).partials :=
    runPI_sorted ops _ (by simp [sortedP, PartialsInterval.init])
      (by intro x hx; simp [PartialsInterval.init] at hx) h1
  have hbound : ∀ x ∈ (runPI (PartialsInterval.init keep) ops).partials, x.1 ≤ ts := by
    intro x hx
    rcases runPI_mem ops _ x hx with h | h
    · simp [PartialsInterval.init] at h
    · exact hts x.1 h
  have hpts := runPI_points_inv ops (PartialsInterval.init keep) rfl
  have hk : (runPI (PartialsInterval.init keep) ops).keep_interval = keep :=
    runPI_keep ops _
  have := add_evict_window (runPI (PartialsInterval.init keep) ops) ts d now hs hbound hpts
  rw [hk] at this
  exact ⟨this.2, this.1⟩

/-- Witness for claim C1, on the scenario from the specification:
keep_interval 100, inserts (0, 10) and (50, 20), then an evicting add of
(90, 5) at wall-clock 150; the cutoff is 50, the event (0, 10) is evicted and
points is 25, the sum of the retained in-window weights. -/
theorem claim_C1_witness :
    List.Pairwise (· ≤ ·)
        (([⟨0, 10, 95, true⟩, ⟨50, 20, 95, true⟩] : List PIOp).map PIOp.ts ++ [90])
    ∧ ((runPI (PartialsInterval.init 100) [⟨0, 10, 95, true⟩, ⟨50, 20, 95, true⟩]).add
          90 5 150 true).1.points
        = sumWeights ((((runPI (PartialsInterval.init 100)
              [⟨0, 10, 95, true⟩, ⟨50, 20, 95, true⟩]).add 90 5 150 true).1.partials).filter
            (fun x => decide (150 - 100 ≤ x.1))) :=
  ⟨by decide,
   (claim_C1 100 [⟨0, 10, 95, true⟩, ⟨50, 20, 95, true⟩] 90 5 150 (by decide)).1⟩

/-- Association-list lookup, modelling Python dict access by key. -/
def alistLookup {A : Type} : List (Nat × A) → Nat → Option A
  | [], _ => none
  | (k, v) :: rest, key => if k = key then some v else alistLookup rest key

/-- Association-list insert-or-replace: replaces the value at an existing key
in place (Python dict assignment keeps the key position) and appends a fresh
key at the end (insertion order). -/
def upsert {A : Type} : List (Nat × A) → Nat → A → List (Nat × A)
  | [], key, v => [(key, v)]
  | (k, v0) :: rest, key, v =>
    if k = key then (key, v) :: rest else (k, v0) :: upsert rest key v

/-- State of a PartialsCache: the dict from launcher id to PartialsInterval
(as an insertion-ordered association list), the distinguished interval for all
launchers, and keep_interval. The asyncio lock is not part of the state. -/
structure PartialsCache where
  entries : List (Nat × PartialsInterval)
  all : PartialsInterval
  keep_interval : Int
deriving DecidableEq

/-- PartialsCache.__init__ with no initial items. -/
def PartialsCache.init (keep_interval : Int) : PartialsCache :=
  ⟨[], PartialsInterval.init keep_interval, keep_interval⟩

/-- Reading self[launcher_id]: the stored interval, or the fresh default that
PartialsCache.__missing__ would create. -/
def getInterval (c : PartialsCache) (lid : Nat) : PartialsInterval :=
  match alistLookup c.entries lid with
  | some pi => pi
  | none => PartialsInterval.init c.keep_interval

/-- PartialsCache.add, up to and including the locked section: create the
launcher's interval if absent, call its add (with eviction), and call the
"all" interval's add (with eviction) with the same event. Returns the new
cache and the counter value the per-launcher add returned. The metric-report
step that follows is modelled separately (addWithReport). -/
def PartialsCache.add (c : PartialsCache) (lid : Nat)
    (timestamp difficulty now : Int) : PartialsCache × Nat :=
  let pi := getInterval c lid
  let r := pi.add timestamp difficulty now true
  let ra := c.all.add timestamp difficulty now true
  (⟨upsert c.entries lid r.1, ra.1, c.keep_interval⟩, r.2)

/-- Line 77 of the source: the metric-report step runs exactly when the
counter value returned by the per-launcher add satisfies additions % 5 == 0. -/
def metricReportRuns (c : PartialsCache) (lid : Nat)
    (timestamp difficulty now : Int) : Bool :=
  (c.add lid timestamp difficulty now).2 % 5 == 0

/-- The derived metrics reported to the store: the points used and the PPLNS
share Decimal(points) / Decimal(all.points), as an exact rational. The
float-based estimated_size is not modelled (floating point); its divisor is a
positive constant, so it cannot raise. -/
structure MetricReport where
  points : Int
  share_pplns : ℚ
deriving DecidableEq

/-- PartialsCache.add including the metric-report step. When the counter
value is a multiple of 5 the code computes points (the full total when the
interval's keep_interval equals the pool time_target, otherwise the sum
restricted to the last time_target seconds before the event timestamp) and
then evaluates Decimal(points) / Decimal(self.all.points), which raises
DivisionByZero when all.points is zero; the raise is modelled as
Except.error. -/
def PartialsCache.addWithReport (c : PartialsCache) (lid : Nat)
    (timestamp difficulty now time_target : Int) :
    Except String (PartialsCache × Option MetricReport) :=
  let r := c.add lid timestamp difficulty now
  if r.2 % 5 == 0 then
    let pi := getInterval r.1 lid
    let points :=
      if pi.keep_interval = time_target then pi.points
      else sumWeights (pi.partials.filter
        (fun x => decide (timestamp - time_target ≤ x.1)))
    if r.1.all.points = 0 then Except.error "DivisionByZero"
    else Except.ok (r.1, some ⟨points, (points : ℚ) / (r.1.all.points : ℚ)⟩)
  else Except.ok (r.1, none)

/-- One PartialsCache.add call: launcher id, timestamp, difficulty and the
wall-clock time of the call. -/
structure CacheOp where
  lid : Nat
  ts : Int
  d : Int
  now : Int
deriving DecidableEq

/-- Run a sequence of PartialsCache.add calls. -/
def runCache (c : PartialsCache) (ops : List CacheOp) : PartialsCache :=
  ops.foldl (fun c o => (c.add o.lid o.ts o.d o.now).1) c

/-- Sum of the points fields over an association list of intervals. -/
def sumPointsList (l : List (Nat × PartialsInterval)) : Int :=
  (l.map (fun e => e.2.points)).sum

/-- Sum of points over all launchers stored in the cache. -/
def sumEntryPoints (c : PartialsCache) : Int :=
  sumPointsList c.entries

/-- Claim C5: the derived-metric computation and report step of
PartialsCache.add runs if and only if the counter value returned by that
launcher's PartialsInterval.add is a multiple of 5. -/
theorem claim_C5 (c : PartialsCache) (lid : Nat) (timestamp difficulty now : Int) :
    metricReportRuns c lid timestamp difficulty now = true
      ↔ ((getInterval c lid).add timestamp difficulty now true).2 % 5 = 0 := by
  simp [metricReportRuns, PartialsCache.add]

/-- Claim C6 is violated by the code: on a fresh cache with keep_interval 100
and time_target 100, a first add of an already-expired event (timestamp 0,
difficulty 5, wall-clock 1000) evicts the event from both intervals, the
counter value 0 triggers the report step, and the share computation divides
Decimal(0) by Decimal(0), raising instead of logging and proceeding. -/
theorem claim_C6_bug :
    PartialsCache.addWithReport (PartialsCache.init 100) 0 0 5 1000 100
      = Except.error "DivisionByZero" := by
  rfl

/-- Claim C2 counterexample: with keep_interval 100, launcher 0 adds an event
(timestamp 0, weight 5) at wall-clock 0, then launcher 1 adds (500, 3) at
wall-clock 500. The second add evicts the first event from the global "all"
interval (cutoff 400) but launcher 0's own interval is untouched, so at this
quiescent point all.points is 3 while the per-launcher points sum to 8. -/
theorem claim_C2_counterexample :
    (runCache (PartialsCache.init 100) [⟨0, 0, 5, 0⟩, ⟨1, 500, 3, 500⟩]).all.points = 3
      ∧ sumEntryPoints (runCache (PartialsCache.init 100) [⟨0, 0, 5, 0⟩, ⟨1, 500, 3, 500⟩]) = 8
      ∧ (runCache (PartialsCache.init 100) [⟨0, 0, 5, 0⟩, ⟨1, 500, 3, 500⟩]).all.points
          ≠ sumEntryPoints (runCache (PartialsCache.init 100) [⟨0, 0, 5, 0⟩, ⟨1, 500, 3, 500⟩]) := by
  refine ⟨rfl, rfl, ?_⟩
  decide

theorem alistLookup_mem {A : Type} (l : List (Nat × A)) (k : Nat) (v : A)
    (h : alistLookup l k = some v) : (k, v) ∈ l := by
  induction l with
  | nil => simp [alistLookup] at h
  | cons a rest ih =>
    obtain ⟨k0, v0⟩ := a
    simp only [alistLookup] at h
    by_cases hk : k0 = k
    · rw [if_pos hk, Option.some.injEq] at h
      subst h
      subst hk
      exact List.mem_cons_self _ _
    · rw [if_neg hk] at h
      exact List.mem_cons_of_mem _ (ih h)

theorem upsert_of_lookup_none {A : Type} (l : List (Nat × A)) (k : Nat) (v : A)
    (h : alistLookup l k = none) : upsert l k v = l ++ [(k, v)] := by
  induction l with
  | nil => rfl
  | cons a rest ih =>
    obtain ⟨k0, v0⟩ := a
    simp only [alistLookup] at h
    by_cases hk : k0 = k
    · rw [if_pos hk] at h
      exact absurd h (by simp)
    · rw [if_neg hk] at h
      simp only [upsert]
      rw [if_neg hk, ih h]
      rfl

theorem mem_upsert {A : Type} (l : List (Nat × A)) (k : Nat) (v : A)
    (e : Nat × A) (h : e ∈ upsert l k v) : e ∈ l ∨ e = (k, v) := by
  induction l with
  | nil => exact Or.inr (by simpa [upsert] using h)
  | cons a rest ih =>
    obtain ⟨k0, v0⟩ := a
    simp only [upsert] at h
    by_cases hk : k0 = k
    · rw [if_pos hk] at h
      rcases List.mem_cons.mp h with rfl | h
      · exact Or.inr rfl
      · exact Or.inl (List.mem_cons_of_mem _ h)
    · rw [if_neg hk] at h
      rcases List.mem_cons.mp h with rfl | h
      · exact Or.inl (List.mem_cons_self _ _)
      · rcases ih h with h2 | h2
        · exact Or.inl (List.mem_cons_of_mem _ h2)
        · exact Or.inr h2

theorem sumPointsList_append (l l2 : List (Nat × PartialsInterval)) :
    sumPointsList (l ++ l2) = sumPointsList l + sumPointsList l2 := by
  simp [sumPointsList]

theorem sumPointsList_upsert_some (l : List (Nat × PartialsInterval)) (k : Nat)
    (v v2 : PartialsInterval) (h : alistLookup l k = some v) :
    sumPointsList (upsert l k v2) = sumPointsList l - v.points + v2.points := by
  induction l with
  | nil => simp [alistLookup] at h
  | cons a rest ih =>
    obtain ⟨k0, v0⟩ := a
    by_cases hk : k0 = k
    · rw [alistLookup, if_pos hk, Option.some.injEq] at h
      subst h
      rw [upsert, if_pos hk]
      simp only [sumPointsList, List.map_cons, List.sum_cons]
      ring
    · rw [alistLookup, if_neg hk] at h
      rw [upsert, if_neg hk]
      simp only [sumPointsList, List.map_cons, List.sum_cons] at *
      rw [ih h]
      ring

/-- The inductive invariant for claim C2: every stored interval uses the same
keep_interval, every retained timestamp satisfies Q, and the global points
equals the sum of the per-launcher points. -/
def CacheInv (Q : Int → Prop) (keep : Int) (c : PartialsCache) : Prop :=
  c.keep_interval = keep
    ∧ c.all.keep_interval = keep
    ∧ (∀ e ∈ c.entries, e.2.keep_interval = keep)
    ∧ (∀ x ∈ c.all.partials, Q x.1)
    ∧ (∀ e ∈ c.entries, ∀ x ∈ e.2.partials, Q x.1)
    ∧ c.all.points = sumEntryPoints c

/-- A non-evicting add (one whose cutoff is below every Q-timestamp, the
added one included) preserves the cache invariant. -/
theorem cacheAdd_inv (Q : Int → Prop) (keep : Int) (c : PartialsCache)
    (lid : Nat) (ts d now : Int)
    (hinv : CacheInv Q keep c) (hQts : Q ts)
    (hcut : ∀ t, Q t → now - keep ≤ t) :
    CacheInv Q keep (c.add lid ts d now).1 := by
  obtain ⟨hkc, hka, hke, hQa, hQe, hpts⟩ := hinv
  have hallQ : ∀ x ∈ c.all.partials ++ [(ts, d)], Q x.1 := by
    intro x hx
    rcases List.mem_append.mp hx with h | h
    · exact hQa x h
    · simp only [List.mem_singleton] at h
      subst h
      exact hQts
  have hallNo : evictLoop (c.all.partials ++ [(ts, d)]) (now - c.all.keep_interval)
      (c.all.points + d) = (c.all.partials ++ [(ts, d)], c.all.points + d) := by
    rw [hka]
    exact evictLoop_of_forall _ _ _ (fun x hx => hcut x.1 (hallQ x hx))
  have haddAll : (c.all.add ts d now true).1
      = ⟨c.all.partials ++ [(ts, d)], c.all.points + d,
         c.all.additions + 1, c.all.keep_interval⟩ := by
    simp only [PartialsInterval.add, if_true, hallNo]
  cases hl : alistLookup c.entries lid with
  | some pi0 =>
    have hmem0 : (lid, pi0) ∈ c.entries := alistLookup_mem _ _ _ hl
    have hk0 : pi0.keep_interval = keep := hke _ hmem0
    have hQ0 : ∀ x ∈ pi0.partials ++ [(ts, d)], Q x.1 := by
      intro x hx
      rcases List.mem_append.mp hx with h | h
      · exact hQe _ hmem0 x h
      · simp only [List.mem_singleton] at h
        subst h
        exact hQts
    have hno : evictLoop (pi0.partials ++ [(ts, d)]) (now - pi0.keep_interval)
        (pi0.points + d) = (pi0.partials ++ [(ts, d)], pi0.points + d) := by
      rw [hk0]
      exact evictLoop_of_forall _ _ _ (fun x hx => hcut x.1 (hQ0 x hx))
    have hget : getInterval c lid = pi0 := by
      simp [getInterval, hl]
    have hadd : (c.add lid ts d now).1
        = ⟨upsert c.entries lid
              ⟨pi0.partials ++ [(ts, d)], pi0.points + d,
               pi0.additions + 1, pi0.keep_interval⟩,
           ⟨c.all.partials ++ [(ts, d)], c.all.points + d,
            c.all.additions + 1, c.all.keep_interval⟩,
           c.keep_interval⟩ := by
      simp only [PartialsCache.add, hget, PartialsInterval.add, if_true, hno, hallNo]
    rw [hadd]
    refine ⟨hkc, hka, ?_, ?_, ?_, ?_⟩
    · intro e he
      rcases mem_upsert _ _ _ e he with h | h
      · exact hke e h
      · subst h
        exact hk0
    · exact hallQ
    · intro e he
      rcases mem_upsert _ _ _ e he with h | h
      · exact hQe e h
      · subst h
        exact hQ0
    · show c.all.points + d = sumPointsList (upsert c.entries lid _)
      rw [sumPointsList_upsert_some _ _ pi0 _ hl]
      have : sumPointsList c.entries = c.all.points := by
        rw [hpts]
        rfl
      simp only [this]
      ring
  | none =>
    have hget : getInterval c lid = PartialsInterval.init c.keep_interval := by
      simp [getInterval, hl]
    have hno : evictLoop [(ts, d)] (now - c.keep_interval) (0 + d)
        = ([(ts, d)], 0 + d) := by
      rw [hkc]
      refine evictLoop_of_forall _ _ _ ?_
      intro x hx
      simp only [List.mem_singleton] at hx
      subst hx
      exact hcut ts hQts
    have hadd : (c.add lid ts d now).1
        = ⟨upsert c.entries lid ⟨[(ts, d)], 0 + d, 0 + 1, c.keep_interval⟩,
           ⟨c.all.partials ++ [(ts, d)], c.all.points + d,
            c.all.additions + 1, c.all.keep_interval⟩,
           c.keep_interval⟩ := by
      simp only [PartialsCache.add, hget, PartialsInterval.add, PartialsInterval.init,
        List.nil_append, if_true, hno, hallNo]
    rw [hadd, upsert_of_lookup_none _ _ _ hl]
    refine ⟨hkc, hka, ?_, ?_, ?_, ?_⟩
    · intro e he
      rcases List.mem_append.mp he with h | h
      · exact hke e h
      · simp only [List.mem_singleton] at h
        subst h
        exact hkc
    · exact hallQ
    · intro e he
      rcases List.mem_append.mp he with h | h
      · exact hQe e h
      · simp only [List.mem_singleton] at h
        subst h
        intro x hx
        simp only [List.mem_singleton] at hx
        subst hx
        exact hQts
    · show c.all.points + d = sumPointsList (c.entries
          ++ [(lid, (⟨[(ts, d)], 0 + d, 0 + 1, c.keep_interval⟩ : PartialsInterval))])
      rw [sumPointsList_append]
      have hsum : sumPointsList c.entries = c.all.points := by
        rw [hpts]
        rfl
      have hone : sumPointsList
          [(lid, (⟨[(ts, d)], 0 + d, 0 + 1, c.keep_interval⟩ : PartialsInterval))]
          = 0 + d := by
        simp [sumPointsList]
      rw [hsum, hone]
      ring

/-- Running a sequence of non-evicting adds preserves the cache invariant. -/
theorem runCache_inv (Q : Int → Prop) (keep : Int) :
    ∀ (ops : List CacheOp) (c : PartialsCache),
    CacheInv Q keep c →
    (∀ o ∈ ops, Q o.ts ∧ ∀ t, Q t → o.now - keep ≤ t) →
    CacheInv Q keep (runCache c ops) := by
  intro ops
  induction ops with
  | nil => intro c hinv _; simpa [runCache] using hinv
  | cons o rest ih =>
    intro c hinv hops
    simp only [runCache, List.foldl_cons]
    refine ih _ ?_ ?_
    · exact cacheAdd_inv Q keep c o.lid o.ts o.d o.now hinv
        (hops o (List.mem_cons_self _ _)).1 (hops o (List.mem_cons_self _ _)).2
    · intro o2 ho2
      exact hops o2 (List.mem_cons_of_mem _ ho2)

/-- Claim C2 (amended): the global points equals the sum of per-launcher
points at every quiescent point, provided no event expires during the run:
every added timestamp must lie within the retention window of every add's
eviction time. (Without that proviso the equality fails, because eviction is
lazy: an add evicts only that launcher's interval and the global one, so
events evicted from the global interval can linger in an idle launcher's
interval — see the counterexample.) -/
theorem claim_C2_amended (keep : Int) (ops : List CacheOp)
    (h : ∀ o ∈ ops, ∀ o2 ∈ ops, o2.now - keep ≤ o.ts) :
    (runCache (PartialsCache.init keep) ops).all.points
      = sumEntryPoints (runCache (PartialsCache.init keep) ops) := by
  have hinv := runCache_inv (fun t => ∀ o2 ∈ ops, o2.now - keep ≤ t) keep ops
    (PartialsCache.init keep)
    ⟨rfl, rfl, by simp [PartialsCache.init],
     by simp [PartialsCache.init, PartialsInterval.init],
     by simp [PartialsCache.init], rfl⟩
    (fun o ho => ⟨fun o2 ho2 => h o ho o2 ho2, fun t ht => ht o ho⟩)
  exact hinv.2.2.2.2.2

/-- Witness for the amended claim C2: keep_interval 100, launcher 0 adds
(10, 5) at wall-clock 20 and launcher 1 adds (30, 7) at wall-clock 40;
nothing expires and the global points 12 equals the sum 5 + 7. -/
theorem claim_C2_witness :
    (∀ o ∈ ([⟨0, 10, 5, 20⟩, ⟨1, 30, 7, 40⟩] : List CacheOp),
        ∀ o2 ∈ ([⟨0, 10, 5, 20⟩, ⟨1, 30, 7, 40⟩] : List CacheOp),
        o2.now - 100 ≤ o.ts)
    ∧ (runCache (PartialsCache.init 100) [⟨0, 10, 5, 20⟩, ⟨1, 30, 7, 40⟩]).all.points
        = sumEntryPoints (runCache (PartialsCache.init 100) [⟨0, 10, 5, 20⟩, ⟨1, 30, 7, 40⟩]) :=
  ⟨by decide, claim_C2_amended 100 [⟨0, 10, 5, 20⟩, ⟨1, 30, 7, 40⟩] (by decide)⟩

/-- Python list slicing partials[-n:]: for n == 0 the slice bound -0 equals 0
and the result is the whole list; for n >= 1 it is the last n elements (all of
them when n exceeds the length). -/
def pythonTakeLast (l : List (Int × Int)) (n : Nat) : List (Int × Int) :=
  if n = 0 then l else l.drop (l.length - n)

/-- State of the Partials facade: the durable store's raw-event table
(each row launcher id, timestamp, difficulty, optional error) and the cache.
The store itself is an external collaborator; only the written rows are
modelled. -/
structure Partials where
  storedEvents : List (Nat × Int × Int × Option String)
  cache : PartialsCache

/-- Partials.get_recent_partials: reversed(self.cache[launcher_id].partials
[-number_of_partials:]) as (timestamp, difficulty) pairs. The uint64 casts
are identities on the modelled integers. -/
def Partials.get_recent_partials (p : Partials) (launcher_id : Nat)
    (number_of_partials : Nat) : List (Int × Int) :=
  (pythonTakeLast (getInterval p.cache launcher_id).partials number_of_partials).reverse

/-- The iteration of Partials.get_farmer_points_and_payout_instructions over
self.cache.items(): skip intervals with zero points, skip launchers whose
payout instructions are missing (the error is logged and the loop continues),
otherwise emit (points, payout instructions). -/
def payoutLoop : List (Nat × PartialsInterval) → List (Nat × Nat) → List (Int × Nat)
  | [], _ => []
  | (lid, pi) :: rest, dests =>
    if pi.points = 0 then payoutLoop rest dests
    else
      match alistLookup dests lid with
      | none => payoutLoop rest dests
      | some ph => (pi.points, ph) :: payoutLoop rest dests

/-- Partials.get_farmer_points_and_payout_instructions: the emitted
(points, payout instructions) pairs plus the global points total. The
launcher-to-instructions mapping fetched from the store is a parameter. -/
def Partials.get_farmer_points_and_payout_instructions (p : Partials)
    (launcher_id_and_ph : List (Nat × Nat)) : List (Int × Nat) × Int :=
  (payoutLoop p.cache.entries launcher_id_and_ph, p.cache.all.points)

/-- Partials.add_partial: always write the raw event (error included) to the
store, then forward to the cache only when no error is present. The hex
encoding of the launcher id is injective, modelled as the identity on Nat.
The metric-report step inside the cache add happens after the cache mutation
and does not change the cache contents, so it is omitted here. -/
def Partials.add_partial_event (p : Partials) (launcher_id : Nat)
    (timestamp difficulty : Int) (error : Option String) (now : Int) : Partials :=
  let stored := p.storedEvents ++ [(launcher_id, timestamp, difficulty, error)]
  match error with
  | none => ⟨stored, (p.cache.add launcher_id timestamp difficulty now).1⟩
  | some _ => ⟨stored, p.cache⟩

theorem reverse_pythonTakeLast (l : List (Int × Int)) (n : Nat) (h : 1 ≤ n) :
    (pythonTakeLast l n).reverse = l.reverse.take n := by
  unfold pythonTakeLast
  rw [if_neg (by omega : ¬ n = 0)]
  rcases le_or_lt n l.length with hle | hlt
  · rw [List.reverse_drop]
    congr 1
    omega
  · have h1 : l.length - n = 0 := by omega
    rw [h1, List.drop_zero, List.take_of_length_le (by simpa using le_of_lt hlt)]

/-- Claim C7 counterexample: with events (1,5), (2,7), (3,9) stored for
launcher 0, a query with count 0 returns all three pairs (Python partials[-0:]
is the whole list), not "up to 0" pairs. -/
theorem claim_C7_counterexample :
    Partials.get_recent_partials
        ⟨[], runCache (PartialsCache.init 100) [⟨0, 1, 5, 10⟩, ⟨0, 2, 7, 10⟩, ⟨0, 3, 9, 10⟩]⟩ 0 0
      = [(3, 9), (2, 7), (1, 5)]
    ∧ ¬ ((Partials.get_recent_partials
        ⟨[], runCache (PartialsCache.init 100) [⟨0, 1, 5, 10⟩, ⟨0, 2, 7, 10⟩, ⟨0, 3, 9, 10⟩]⟩ 0 0).length
          ≤ 0) := by
  refine ⟨by decide, by decide⟩

/-- Claim C7 (amended): for every count n >= 1, get_recent_partials returns
up to n of the most recent retained (timestamp, difficulty) pairs for the
launcher, newest first: the first n entries of the reversed retained list.
(For n = 0 the whole history is returned, see the counterexample.) -/
theorem claim_C7_amended (p : Partials) (launcher_id : Nat) (n : Nat) (h : 1 ≤ n) :
    Partials.get_recent_partials p launcher_id n
      = (getInterval p.cache launcher_id).partials.reverse.take n := by
  unfold Partials.get_recent_partials
  exact reverse_pythonTakeLast _ n h

/-- Witness for the amended claim C7, on the scenario from the specification:
after inserting (1,5), (2,7), (3,9), a query with count 2 returns
[(3,9), (2,7)] — descending, most recent first, limited to 2. -/
theorem claim_C7_witness :
    (1 : Nat) ≤ 2
    ∧ Partials.get_recent_partials
        ⟨[], runCache (PartialsCache.init 100) [⟨0, 1, 5, 10⟩, ⟨0, 2, 7, 10⟩, ⟨0, 3, 9, 10⟩]⟩ 0 2
      = [(3, 9), (2, 7)] := by
  refine ⟨by decide, ?_⟩
  rw [claim_C7_amended
    ⟨[], runCache (PartialsCache.init 100) [⟨0, 1, 5, 10⟩, ⟨0, 2, 7, 10⟩, ⟨0, 3, 9, 10⟩]⟩ 0 2
    (by decide)]
  decide

theorem mem_payoutLoop (entries : List (Nat × PartialsInterval))
    (dests : List (Nat × Nat)) (pts : Int) (ph : Nat) :
    (pts, ph) ∈ payoutLoop entries dests
      ↔ ∃ lid pi, (lid, pi) ∈ entries ∧ pi.points = pts ∧ pts ≠ 0
          ∧ alistLookup dests lid = some ph := by
  induction entries with
  | nil => simp [payoutLoop]
  | cons a rest ih =>
    obtain ⟨lid0, pi0⟩ := a
    simp only [payoutLoop]
    by_cases h0 : pi0.points = 0
    · rw [if_pos h0, ih]
      constructor
      · rintro ⟨lid, pi, hmem, hpts, hne, hlk⟩
        exact ⟨lid, pi, List.mem_cons_of_mem _ hmem, hpts, hne, hlk⟩
      · rintro ⟨lid, pi, hmem, hpts, hne, hlk⟩
        rcases List.mem_cons.mp hmem with heq | hmem2
        · rw [Prod.mk.injEq] at heq
          obtain ⟨rfl, rfl⟩ := heq
          exact absurd (hpts.symm.trans h0) hne
        · exact ⟨lid, pi, hmem2, hpts, hne, hlk⟩
    · rw [if_neg h0]
      cases hd : alistLookup dests lid0 with
      | none =>
        rw [ih]
        constructor
        · rintro ⟨lid, pi, hmem, hpts, hne, hlk⟩
          exact ⟨lid, pi, List.mem_cons_of_mem _ hmem, hpts, hne, hlk⟩
        · rintro ⟨lid, pi, hmem, hpts, hne, hlk⟩
          rcases List.mem_cons.mp hmem with heq | hmem2
          · rw [Prod.mk.injEq] at heq
            obtain ⟨rfl, rfl⟩ := heq
            rw [hd] at hlk
            exact absurd hlk (by simp)
          · exact ⟨lid, pi, hmem2, hpts, hne, hlk⟩
      | some ph0 =>
        rw [List.mem_cons, ih]
        constructor
        · rintro (heq | ⟨lid, pi, hmem, hpts, hne, hlk⟩)
          · rw [Prod.mk.injEq] at heq
            obtain ⟨h1, h2⟩ := heq
            refine ⟨lid0, pi0, List.mem_cons_self _ _, h1.symm, ?_, ?_⟩
            · intro hc
              rw [h1] at hc
              exact h0 hc
            · rw [h2]
              exact hd
          · exact ⟨lid, pi, List.mem_cons_of_mem _ hmem, hpts, hne, hlk⟩
        · rintro ⟨lid, pi, hmem, hpts, hne, hlk⟩
          rcases List.mem_cons.mp hmem with heq | hmem2
          · rw [Prod.mk.injEq] at heq
            obtain ⟨rfl, rfl⟩ := heq
            left
            have hp := Option.some.inj (hlk.symm.trans hd)
            rw [Prod.mk.injEq]
            exact ⟨hpts.symm, hp⟩
          · right
            exact ⟨lid, pi, hmem2, hpts, hne, hlk⟩

/-- Claim C8: the payout pass emits a (points, payout instructions) pair
exactly for the cached launchers with nonzero points and known instructions
(zero-points launchers are excluded, launchers without instructions are
skipped without aborting the pass), and the result carries the global points
total. -/
theorem claim_C8 (p : Partials) (dests : List (Nat × Nat)) :
    (∀ pts ph, (pts, ph) ∈ (Partials.get_farmer_points_and_payout_instructions p dests).1
        ↔ ∃ lid pi, (lid, pi) ∈ p.cache.entries ∧ pi.points = pts ∧ pts ≠ 0
            ∧ alistLookup dests lid = some ph)
    ∧ (Partials.get_farmer_points_and_payout_instructions p dests).2 = p.cache.all.points :=
  ⟨fun pts ph => mem_payoutLoop p.cache.entries dests pts ph, rfl⟩

/-- Claim C9: every call to add_partial persists the raw event (an error
event included) to the durable store, and the event reaches the cache exactly
when no error is present; an event carrying an error leaves the cache (its
per-launcher and global sums included) unchanged. -/
theorem claim_C9 (p : Partials) (launcher_id : Nat) (timestamp difficulty : Int)
    (error : Option String) (now : Int) :
    (Partials.add_partial_event p launcher_id timestamp difficulty error now).storedEvents
        = p.storedEvents ++ [(launcher_id, timestamp, difficulty, error)]
      ∧ (error = none →
          (Partials.add_partial_event p launcher_id timestamp difficulty error now).cache
            = (p.cache.add launcher_id timestamp difficulty now).1)
      ∧ (error ≠ none →
          (Partials.add_partial_event p launcher_id timestamp difficulty error now).cache
            = p.cache) := by
  cases error with
  | none => exact ⟨rfl, fun _ => rfl, fun h => absurd rfl h⟩
  | some e => exact ⟨rfl, fun h => by simp at h, fun _ => rfl⟩

/-- Witness for claim C9: on a fresh state, a successful event reaches the
cache and an error event leaves the cache unchanged. -/
theorem claim_C9_witness :
    (Partials.add_partial_event ⟨[], PartialsCache.init 100⟩ 0 1 2 none 3).cache
        = ((PartialsCache.init 100).add 0 1 2 3).1
    ∧ (Partials.add_partial_event ⟨[], PartialsCache.init 100⟩ 0 1 2 (some "e") 3).cache
        = PartialsCache.init 100 :=
  ⟨(claim_C9 ⟨[], PartialsCache.init 100⟩ 0 1 2 none 3).2.1 rfl,
   (claim_C9 ⟨[], PartialsCache.init 100⟩ 0 1 2 (some "e") 3).2.2 (by simp)⟩
